import Mathlib

/-!
Verification of the dolos core subsystems: the rollback-aware WAL database
(`src/rolldb/mod.rs`), the mempool monitor (`src/submit/mempool.rs`) and the
follow-tip gRPC stream mapping (`src/serve/grpc/sync.rs`).

Machine integers (`u64`) are modelled as `Nat` with explicit `% 2^64`
wrapping where the source performs unsigned subtraction.  Block hashes
(32-byte values) and transaction hashes are modelled as `Nat`; block bodies
as `List Nat`.  The RocksDB column families (ordered key-value tables with
point get, upsert, delete and ascending iteration) are modelled as
association lists kept sorted by key, so that list order coincides with
iteration order of the store.
-/

namespace Dolos

/-- The u64 modulus. -/
def u64 : Nat := 2 ^ 64

/-- Wrapping unsigned 64-bit subtraction, as performed by Rust's `-` on
`u64` in release builds. -/
def wsub (a b : Nat) : Nat := (u64 + a % u64 - b % u64) % u64

/-- Checked unsigned 64-bit subtraction: `none` exactly when the
subtraction would underflow (the case that panics in debug builds). -/
def csub (a b : Nat) : Option Nat :=
  if a % u64 < b % u64 then none else some (a % u64 - b % u64)

/-! ## Ordered key-value tables (the RocksDB column families) -/

/-- Upsert into a key-sorted association list: insert `(k, v)` at its key
position, replacing an existing entry with key `k`.  Models a RocksDB `put`
on a family whose iteration order is ascending by key. -/
def kvUpsert {β : Type} : List (Nat × β) → Nat → β → List (Nat × β)
  | [], k, v => [(k, v)]
  | (k', v') :: rest, k, v =>
    if k < k' then (k, v) :: (k', v') :: rest
    else if k = k' then (k, v) :: rest
    else (k', v') :: kvUpsert rest k v

/-- Point lookup in an association list; models a RocksDB `get`. -/
def kvGet {β : Type} (l : List (Nat × β)) (k : Nat) : Option β :=
  l.lookup k

/-- Delete by key; models a RocksDB `delete`. -/
def kvDelete {β : Type} (l : List (Nat × β)) (k : Nat) : List (Nat × β) :=
  l.filter (fun e => e.1 ≠ k)

/-! ## WAL values (`src/rolldb/wal.rs`, interface visible from `mod.rs`) -/

/-- The three WAL event kinds (`wal::WalAction`). -/
inductive WalAction : Type
  | apply
  | undo
  | mark
deriving DecidableEq, Repr

/-- A WAL value (`wal::Value`): an action together with the slot and block
hash it names.  `Mark` carries the point (slot, hash) of the new tip. -/
structure WalValue : Type where
  action : WalAction
  slot : Nat
  hash : Nat
deriving DecidableEq, Repr

/-- `entry.is_apply()`. -/
def WalValue.isApply (v : WalValue) : Bool := v.action = WalAction.apply

/-- `entry.is_undo()`. -/
def WalValue.isUndo (v : WalValue) : Bool := v.action = WalAction.undo

/-- `entry.is_mark()`. -/
def WalValue.isMark (v : WalValue) : Bool := v.action = WalAction.mark

/-! ## The RollDB state (`src/rolldb/mod.rs`) -/

/-- The database state: the `block_body` family (hash → body), the `chain`
family (slot → hash), the `wal` family (seq → value) and the in-memory
`wal_seq` cursor. -/
structure RollDB : Type where
  blocks : List (Nat × List Nat)
  chain : List (Nat × Nat)
  wal : List (Nat × WalValue)
  wal_seq : Nat
deriving DecidableEq, Repr

/-- A freshly opened database over an empty store. -/
def RollDB.empty : RollDB := ⟨[], [], [], 0⟩

/-- `RollDB::get_block`: point lookup of a block body by hash. -/
def RollDB.get_block (db : RollDB) (hash : Nat) : Option (List Nat) :=
  kvGet db.blocks hash

/-- `RollDB::roll_forward`: in one batch, upsert the block body keyed by
hash and append `(wal_seq + 1, Apply(slot, hash))` to the WAL, then advance
the in-memory cursor.  The seq assignment `wal_seq + 1` follows the spec's
contract for `append_apply` (the staging code lives in the `wal` module). -/
def RollDB.roll_forward (db : RollDB) (slot hash : Nat) (body : List Nat) : RollDB :=
  { db with
    blocks := kvUpsert db.blocks hash body
    wal := db.wal ++ [(db.wal_seq + 1, ⟨WalAction.apply, slot, hash⟩)]
    wal_seq := db.wal_seq + 1 }

/-- The rollback failure kind (spec section 7 error taxonomy). -/
inductive WalError : Type
  | PointNotReachable
deriving DecidableEq, Repr

/-- Modelled from the spec: the backward walk of `wal::WalKV::stage_roll_back`
(the `wal` module is not part of the visible source).  Walk the WAL tail
newest-to-oldest (the argument is the reversed WAL); emit an `Undo` for
every `Apply` strictly after the target; stop on the entry whose slot is the
target, returning the collected undos (newest first) and the target's hash;
return `none` when the target is never found (the `PointNotReachable`
case). -/
def walkBack (untl : Nat) : List (Nat × WalValue) → Option (List WalValue × Nat)
  | [] => none
  | e :: rest =>
    if e.2.slot = untl then some ([], e.2.hash)
    else
      match e.2.action with
      | WalAction.apply =>
        (walkBack untl rest).map (fun r => (⟨WalAction.undo, e.2.slot, e.2.hash⟩ :: r.1, r.2))
      | _ => walkBack untl rest

/-- Modelled from the spec: the sequential `stage_append` loop — append each
value at the next seq, returning the new WAL and the final cursor. -/
def appendEntries (wal : List (Nat × WalValue)) (seq : Nat) :
    List WalValue → List (Nat × WalValue) × Nat
  | [] => (wal, seq)
  | v :: vs => appendEntries (wal ++ [(seq + 1, v)]) (seq + 1) vs

/-- `RollDB::roll_back`: stage undos for every apply after the target, then
one `Mark` at the target, all in one batch; on failure
(`PointNotReachable`) nothing is written and the state is returned
unchanged.  The staging walk is modelled from the spec (see `walkBack`). -/
def RollDB.roll_back (db : RollDB) (untl : Nat) : Except WalError Unit × RollDB :=
  match walkBack untl db.wal.reverse with
  | none => (Except.error WalError.PointNotReachable, db)
  | some r =>
    let (wal', seq') := appendEntries db.wal db.wal_seq (r.1 ++ [⟨WalAction.mark, untl, r.2⟩])
    (Except.ok (), { db with wal := wal', wal_seq := seq' })

/-- `WalKV::find_tip` composed with `.map(|(slot, _)| slot).unwrap_or_default()`
as used by `compact`: the slot of the maximal-seq WAL entry, or `0` when the
WAL is empty. -/
def findTipSlot (wal : List (Nat × WalValue)) : Nat :=
  (wal.getLast?.map (fun e => e.2.slot)).getD 0

/-- The loop of `RollDB::compact`: scan WAL entries oldest to newest; stop
at the first entry whose wrapped slot delta from the tip is `≤ k`; otherwise
promote `Apply`/`Mark` into the chain index (upsert) or replay `Undo` as a
chain delete, removing the WAL entry either way.  Returns the final chain
index and the remaining WAL suffix. -/
def compactLoop (tip k : Nat) (chain : List (Nat × Nat)) :
    List (Nat × WalValue) → List (Nat × Nat) × List (Nat × WalValue)
  | [] => (chain, [])
  | e :: rest =>
    if wsub tip e.2.slot ≤ k then (chain, e :: rest)
    else
      match e.2.action with
      | WalAction.apply => compactLoop tip k (kvUpsert chain e.2.slot e.2.hash) rest
      | WalAction.mark => compactLoop tip k (kvUpsert chain e.2.slot e.2.hash) rest
      | WalAction.undo => compactLoop tip k (kvDelete chain e.2.slot) rest

/-- `RollDB::compact`. -/
def RollDB.compact (db : RollDB) (k : Nat) : RollDB :=
  let tip := findTipSlot db.wal
  let r := compactLoop tip k db.chain db.wal
  { db with chain := r.1, wal := r.2 }

/-- The loop of `RollDB::compact` with the u64 subtraction `tip - slot`
checked: returns `none` as soon as a visited entry would underflow the
subtraction (the case that panics in a debug build). -/
def compactLoopChecked (tip k : Nat) (chain : List (Nat × Nat)) :
    List (Nat × WalValue) → Option (List (Nat × Nat) × List (Nat × WalValue))
  | [] => some (chain, [])
  | e :: rest =>
    match csub tip e.2.slot with
    | none => none
    | some d =>
      if d ≤ k then some (chain, e :: rest)
      else
        match e.2.action with
        | WalAction.apply => compactLoopChecked tip k (kvUpsert chain e.2.slot e.2.hash) rest
        | WalAction.mark => compactLoopChecked tip k (kvUpsert chain e.2.slot e.2.hash) rest
        | WalAction.undo => compactLoopChecked tip k (kvDelete chain e.2.slot) rest

/-! ## The mempool monitor (`src/submit/mempool.rs`) -/

/-- The shared monitor state: the tip slot and the tracked-transaction map
`tx_hash → Option inclusion_slot` (a `HashMap` in the source; modelled as an
association list with per-key semantics). -/
structure Monitor : Type where
  tip_slot : Nat
  txs : List (Nat × Option Nat)
deriving DecidableEq, Repr

/-- The inclusion-setting pass of the `NewBlock` handler: for each tracked
transaction whose hash is in `block_txs`, set its inclusion to
`Some(slot)`. -/
def setInclusions (slot : Nat) (block_txs : List Nat) (txs : List (Nat × Option Nat)) :
    List (Nat × Option Nat) :=
  txs.map (fun e => if e.1 ∈ block_txs then (e.1, some slot) else e)

/-- The pruning pass of the `NewBlock` handler (`monitor.txs.retain`): keep
a transaction with `inclusion = Some(s)` iff `slot - s ≤ prune_height`
(wrapping u64 subtraction); always keep unincluded transactions. -/
def pruneTxs (prune_height slot : Nat) (txs : List (Nat × Option Nat)) :
    List (Nat × Option Nat) :=
  txs.filter (fun e =>
    match e.2 with
    | some s => wsub slot s ≤ prune_height
    | none => true)

/-- The `NewBlock(slot, block_txs)` branch of `Worker::execute`: set
inclusion points, prune confirmed transactions, set the tip slot. -/
def mempoolNewBlock (prune_height : Nat) (m : Monitor) (slot : Nat) (block_txs : List Nat) :
    Monitor :=
  { tip_slot := slot
    txs := pruneTxs prune_height slot (setInclusions slot block_txs m.txs) }

/-- The pruning pass with the u64 subtraction `slot - inclusion_slot`
checked: `none` as soon as a visited inclusion slot would underflow it. -/
def pruneTxsChecked (prune_height slot : Nat) :
    List (Nat × Option Nat) → Option (List (Nat × Option Nat))
  | [] => some []
  | e :: rest =>
    match e.2 with
    | some s =>
      match csub slot s with
      | none => none
      | some d =>
        (pruneTxsChecked prune_height slot rest).map
          (fun r => if d ≤ prune_height then e :: r else r)
    | none => (pruneTxsChecked prune_height slot rest).map (fun r => e :: r)

/-- The `NewBlock` branch with the pruning subtraction checked. -/
def mempoolNewBlockChecked (prune_height : Nat) (m : Monitor) (slot : Nat)
    (block_txs : List Nat) : Option Monitor :=
  (pruneTxsChecked prune_height slot (setInclusions slot block_txs m.txs)).map
    (fun t => { tip_slot := slot, txs := t })

/-- The `Rollback(rb_slot)` branch of `Worker::execute`: reset to `None`
the inclusion of every transaction included strictly after `rb_slot`, then
set the tip slot.  No entry is added or removed. -/
def mempoolRollback (m : Monitor) (rb_slot : Nat) : Monitor :=
  { tip_slot := rb_slot
    txs := m.txs.map (fun e =>
      match e.2 with
      | some s => if s > rb_slot then (e.1, none) else e
      | none => e) }

/-- The `AddTxs(txs)` branch of `Worker::execute` (after forwarding
downstream): retain only hashes not already tracked, then extend the map
with `(hash, None)` for each of them. -/
def mempoolAddTxs (m : Monitor) (hashes : List Nat) : Monitor :=
  { m with
    txs := hashes.foldl
      (fun acc h => if (acc.lookup h).isSome then acc else acc ++ [(h, none)]) m.txs }

/-! ## The follow-tip stream mapping (`src/serve/grpc/sync.rs`) -/

/-- A raw block as carried by WAL `Apply`/`Undo` events. -/
structure RawBlock : Type where
  slot : Nat
  hash : Nat
  body : List Nat
deriving DecidableEq, Repr

/-- A chain point: origin or a specific (slot, hash). -/
inductive ChainPoint : Type
  | origin
  | specific (slot : Nat) (hash : Nat)
deriving DecidableEq, Repr

/-- A WAL log value as consumed by the gRPC sync service. -/
inductive LogValue : Type
  | apply (b : RawBlock)
  | undo (b : RawBlock)
  | mark (p : ChainPoint)
deriving DecidableEq, Repr

/-- A `u5c` block reference: slot index and hash bytes (`none` models the
empty byte vector used for origin). -/
structure BlockRef : Type where
  index : Nat
  hash : Option Nat
deriving DecidableEq, Repr

/-- The wire mapping of a raw block (`raw_to_anychain`) is performed by an
external collaborator (protobuf/CBOR interop, out of the specified core);
the embedding keeps the block itself. -/
abbrev AnyChainBlock : Type := RawBlock

/-- The action carried by a `FollowTipResponse`. -/
inductive TipAction : Type
  | applyBlock (b : AnyChainBlock)
  | undoBlock (b : AnyChainBlock)
  | reset (r : BlockRef)
deriving DecidableEq, Repr

/-- Whether a tip action is a `Reset`. -/
def TipAction.isReset : TipAction → Bool
  | TipAction.reset _ => true
  | _ => false

/-- A follow-tip response: an optional action (the protobuf `action` field
is optional; `None` is a response carrying no action). -/
structure FollowTipResponse : Type where
  action : Option TipAction
deriving DecidableEq, Repr

/-- `wal_log_to_tip_response`: map a WAL log value to a follow-tip
response — `Apply`/`Undo` become the corresponding actions, `Mark` becomes
a response with no action. -/
def wal_log_to_tip_response : LogValue → FollowTipResponse
  | LogValue.apply x => ⟨some (TipAction.applyBlock x)⟩
  | LogValue.undo x => ⟨some (TipAction.undoBlock x)⟩
  | LogValue.mark _ => ⟨none⟩

/-- `point_to_reset_tip_response`: the synthetic `Reset` response for the
intersect point (origin maps to an empty hash and index 0). -/
def point_to_reset_tip_response : ChainPoint → FollowTipResponse
  | ChainPoint.origin => ⟨some (TipAction.reset ⟨0, none⟩)⟩
  | ChainPoint.specific slot hash => ⟨some (TipAction.reset ⟨slot, some hash⟩)⟩

/-- The follow-tip stream as a sequence of responses, given the intersect
point and the WAL entries from the intersect seq onward: the synthetic
`Reset` first, then — skipping one entry, the intersect itself — each
forwarded WAL entry mapped through `wal_log_to_tip_response`.  (The ledger
catch-up wait in the source delays emission but alters no response.) -/
def followTipResponses (point : ChainPoint) (entries : List (Nat × LogValue)) :
    List FollowTipResponse :=
  point_to_reset_tip_response point ::
    (entries.drop 1).map (fun e => wal_log_to_tip_response e.2)

/-! ## Concrete scenario data -/

/-- The 100-block linear history of the reference tests (`dummy_block`):
blocks at slots `0, 10, …, 990`; hashes are modelled as the slot value
(the test hashes the slot bytes, an injective stand-in). -/
def scenarioBlocks : RollDB :=
  (List.range 100).foldl (fun db i => db.roll_forward (10 * i) (10 * i) [i]) RollDB.empty

/-- Scenario S2: the 100 applies, a rollback to slot 800, then
`compact(30)`. -/
def scenarioCompacted : RollDB := ((scenarioBlocks.roll_back 800).2).compact 30

/-- A small sample WAL with two applied blocks (slots 10 and 20). -/
def sampleWal : List (Nat × WalValue) :=
  [(1, ⟨WalAction.apply, 10, 10⟩), (2, ⟨WalAction.apply, 20, 20⟩)]

/-- A small sample database holding `sampleWal`. -/
def sampleDb : RollDB := ⟨[(10, [1]), (20, [2])], [], sampleWal, 2⟩

/-- Whether a tracked-transaction entry's inclusion slot (if any) is at
most `slot` in u64 value — the no-underflow condition of the pruning
subtraction `slot - inclusion_slot`. -/
def inclusionBounded (slot : Nat) (e : Nat × Option Nat) : Bool :=
  match e.2 with
  | some s => s % u64 ≤ slot % u64
  | none => true

/-- A small sample monitor: transaction 1 included at slot 5, transaction 2
pending. -/
def sampleMonitor : Monitor := ⟨7, [(1, some 5), (2, none)]⟩

/-- A small sample WAL segment for the follow-tip stream: an apply, a mark
left by a rollback, and an undo. -/
def sampleEntries : List (Nat × LogValue) :=
  [(1, LogValue.apply ⟨10, 10, [0]⟩),
   (2, LogValue.mark (ChainPoint.specific 5 7)),
   (3, LogValue.undo ⟨10, 10, [0]⟩)]

/-! ## Helper lemmas -/

set_option maxRecDepth 100000

theorem kvGet_kvUpsert_self {β : Type} (l : List (Nat × β)) (k : Nat) (v : β) :
    kvGet (kvUpsert l k v) k = some v := by
  induction l with
  | nil => simp [kvUpsert, kvGet, List.lookup]
  | cons e rest ih =>
    obtain ⟨k', v'⟩ := e
    by_cases h1 : k < k'
    · simp [kvUpsert, h1, kvGet, List.lookup]
    · by_cases h2 : k = k'
      · simp [kvUpsert, h1, h2, kvGet, List.lookup]
      · have hne : (k == k') = false := by simp [h2]
        simp only [kvUpsert, if_neg h1, if_neg h2]
        simpa [kvGet, List.lookup, hne] using ih

theorem walkBack_eq_none (u : Nat) :
    ∀ l : List (Nat × WalValue), (∀ e ∈ l, e.2.slot ≠ u) → walkBack u l = none := by
  intro l
  induction l with
  | nil => intro _; rfl
  | cons e rest ih =>
    intro h
    have he : e.2.slot ≠ u := h e (List.mem_cons_self _ _)
    have hr := ih (fun e' me => h e' (List.mem_cons_of_mem _ me))
    cases ha : e.2.action <;> simp [walkBack, he, hr, ha]

/-! ## Claim theorems -/

/-- C7: round trip of block bodies — after `roll_forward(slot, hash, body)`,
`get_block(hash)` returns `Some(body)`. -/
theorem roll_forward_get_block (db : RollDB) (slot hash : Nat) (body : List Nat) :
    (db.roll_forward slot hash body).get_block hash = some body := by
  simpa [RollDB.roll_forward, RollDB.get_block] using
    kvGet_kvUpsert_self db.blocks hash body

/-- C2: rolling back to a target absent from the WAL tail fails with
`PointNotReachable` and leaves the database (WAL and chain index alike)
unchanged. -/
theorem roll_back_point_not_reachable (db : RollDB) (untl : Nat)
    (h : ∀ e ∈ db.wal, e.2.slot ≠ untl) :
    db.roll_back untl = (Except.error WalError.PointNotReachable, db) := by
  have hw : walkBack untl db.wal.reverse = none :=
    walkBack_eq_none untl _ (fun e me => h e (List.mem_reverse.mp me))
  simp [RollDB.roll_back, hw]

/-- Witness for C2 at a concrete database: slot 100 is not in the sample
WAL, and the rollback fails leaving the database unchanged. -/
theorem roll_back_point_not_reachable_witness :
    (∀ e ∈ sampleDb.wal, e.2.slot ≠ 100) ∧
      sampleDb.roll_back 100 = (Except.error WalError.PointNotReachable, sampleDb) :=
  ⟨by decide, roll_back_point_not_reachable sampleDb 100 (by decide)⟩

/-- C3: scenario S2 — 100 blocks at slots `0,10,…,990`, rollback to slot
800, `compact(30)`.  The chain index holds exactly slots `0..=760`
(77 entries ascending) and the WAL holds the `Apply` entries for slots
`770..=990` ascending, then `Undo` entries for slots `990` down to `810`,
then a single `Mark` at slot 800. -/
theorem compact_with_rollback_scenario :
    (scenarioBlocks.roll_back 800).1 = Except.ok () ∧
    scenarioCompacted.chain = (List.range 77).map (fun i => (10 * i, 10 * i)) ∧
    scenarioCompacted.wal =
      (List.range 23).map
        (fun i => (78 + i, (⟨WalAction.apply, 770 + 10 * i, 770 + 10 * i⟩ : WalValue)))
      ++ (List.range 19).map
        (fun j => (101 + j, (⟨WalAction.undo, 990 - 10 * j, 990 - 10 * j⟩ : WalValue)))
      ++ [(120, (⟨WalAction.mark, 800, 800⟩ : WalValue))] :=
  ⟨by rfl, by decide, by decide⟩

theorem wsub_self (a : Nat) : wsub a a = 0 := by
  simp [wsub]

theorem compactLoop_tail (tip k : Nat) :
    ∀ (l : List (Nat × WalValue)) (chain : List (Nat × Nat)) (last : Nat × WalValue),
      l.getLast? = some last → wsub tip last.2.slot ≤ k →
      ∃ e rest, (compactLoop tip k chain l).2 = e :: rest ∧
        wsub tip e.2.slot ≤ k ∧ (e :: rest).getLast? = some last := by
  intro l
  induction l with
  | nil => intro chain last h hk; simp at h
  | cons a t ih =>
    intro chain last hlast hk
    by_cases hstop : wsub tip a.2.slot ≤ k
    · exact ⟨a, t, by simp [compactLoop, hstop], hstop, hlast⟩
    · rcases t with _ | ⟨b, t'⟩
      · have ha : a = last := by simpa using hlast
        exact absurd (ha ▸ hk) hstop
      · have hlast' : (b :: t').getLast? = some last := by
          rwa [List.getLast?_cons_cons] at hlast
        cases ha : a.2.action
        · have h := ih (kvUpsert chain a.2.slot a.2.hash) last hlast' hk
          simpa [compactLoop, hstop, ha] using h
        · have h := ih (kvDelete chain a.2.slot) last hlast' hk
          simpa [compactLoop, hstop, ha] using h
        · have h := ih (kvUpsert chain a.2.slot a.2.hash) last hlast' hk
          simpa [compactLoop, hstop, ha] using h

/-- C6: `compact(k)` is idempotent — running it twice leaves the database
(chain index and WAL alike) identical to running it once. -/
theorem compact_idempotent (db : RollDB) (k : Nat) :
    (db.compact k).compact k = db.compact k := by
  rcases hw : db.wal with _ | ⟨a, t⟩
  · simp [RollDB.compact, hw, compactLoop, findTipSlot]
  · have hne : (a :: t) ≠ [] := List.cons_ne_nil a t
    have hlast := List.getLast?_eq_getLast_of_ne_nil hne
    have hk0 : wsub (findTipSlot (a :: t)) ((a :: t).getLast hne).2.slot ≤ k := by
      have htip : findTipSlot (a :: t) = ((a :: t).getLast hne).2.slot := by
        simp [findTipSlot, hlast]
      rw [htip, wsub_self]; exact Nat.zero_le k
    obtain ⟨e, rest, h2, hstop, hl⟩ :=
      compactLoop_tail (findTipSlot (a :: t)) k (a :: t) db.chain ((a :: t).getLast hne)
        hlast hk0
    have hstop' : wsub ((a :: t).getLast hne).2.slot e.2.slot ≤ k := by
      have htip : findTipSlot (a :: t) = ((a :: t).getLast hne).2.slot := by
        simp [findTipSlot, hlast]
      rwa [htip] at hstop
    have hc1 : db.compact k =
        { db with
          chain := (compactLoop (findTipSlot (a :: t)) k db.chain (a :: t)).1
          wal := e :: rest } := by
      simp [RollDB.compact, hw, ← h2]
    rw [hc1]
    simp [RollDB.compact, findTipSlot, hl, compactLoop, hstop']

theorem wsub_eq_of_no_underflow (a b : Nat) (h : b % u64 ≤ a % u64) :
    wsub a b = a % u64 - b % u64 := by
  unfold wsub
  rw [Nat.add_sub_assoc h, Nat.add_mod_left]
  exact Nat.mod_eq_of_lt
    (lt_of_le_of_lt (Nat.sub_le _ _) (Nat.mod_lt _ (by norm_num [u64])))

theorem compactLoopChecked_eq_aux (tip k : Nat) :
    ∀ (l pre : List (Nat × WalValue)) (chain : List (Nat × Nat)),
      (∀ a e c, pre ++ l = a ++ e :: c → tip % u64 < e.2.slot % u64 →
        ∃ e' ∈ a, wsub tip e'.2.slot ≤ k) →
      (∀ e' ∈ pre, k < wsub tip e'.2.slot) →
      compactLoopChecked tip k chain l = some (compactLoop tip k chain l) := by
  intro l
  induction l with
  | nil => intro pre chain _ _; simp [compactLoopChecked, compactLoop]
  | cons e rest ih =>
    intro pre chain hinv hpre
    have hnu : ¬ tip % u64 < e.2.slot % u64 := by
      intro hu
      obtain ⟨e', he'mem, he'⟩ := hinv pre e rest rfl hu
      exact absurd he' (Nat.not_le.mpr (hpre e' he'mem))
    have hcs : csub tip e.2.slot = some (tip % u64 - e.2.slot % u64) := by
      simp [csub, hnu]
    have hws : wsub tip e.2.slot = tip % u64 - e.2.slot % u64 :=
      wsub_eq_of_no_underflow _ _ (Nat.not_lt.mp hnu)
    by_cases hd : tip % u64 - e.2.slot % u64 ≤ k
    · simp [compactLoopChecked, compactLoop, hcs, hws, hd]
    · have hinv' : ∀ a e' c, (pre ++ [e]) ++ rest = a ++ e' :: c →
          tip % u64 < e'.2.slot % u64 → ∃ x ∈ a, wsub tip x.2.slot ≤ k := by
        intro a e' c hsplit hu
        refine hinv a e' c ?_ hu
        rw [show pre ++ e :: rest = (pre ++ [e]) ++ rest by simp]
        exact hsplit
      have hpre' : ∀ e' ∈ pre ++ [e], k < wsub tip e'.2.slot := by
        intro e' he'
        rcases List.mem_append.mp he' with h | h
        · exact hpre e' h
        · have he : e' = e := by simpa using h
          subst he
          rw [hws]; exact Nat.not_le.mp hd
      cases ha : e.2.action
      · have h := ih (pre ++ [e]) (kvUpsert chain e.2.slot e.2.hash) hinv' hpre'
        simp [compactLoopChecked, compactLoop, hcs, hws, hd, ha, h]
      · have h := ih (pre ++ [e]) (kvDelete chain e.2.slot) hinv' hpre'
        simp [compactLoopChecked, compactLoop, hcs, hws, hd, ha, h]
      · have h := ih (pre ++ [e]) (kvUpsert chain e.2.slot e.2.hash) hinv' hpre'
        simp [compactLoopChecked, compactLoop, hcs, hws, hd, ha, h]

/-- C9: on a WAL where every entry lying above the tip slot is preceded by
an entry within the compaction horizon (distance at most `k` from the tip),
the oldest-to-newest scan of `compact(k)` stops before reaching any entry
whose slot exceeds the tip, so the u64 subtraction `tip - slot` never
underflows: the checked scan agrees with the unchecked one. -/
theorem compact_scan_no_underflow (db : RollDB) (k : Nat)
    (hinv : ∀ pre e post, db.wal = pre ++ e :: post →
      findTipSlot db.wal % u64 < e.2.slot % u64 →
      ∃ e' ∈ pre, wsub (findTipSlot db.wal) e'.2.slot ≤ k) :
    compactLoopChecked (findTipSlot db.wal) k db.chain db.wal =
      some (compactLoop (findTipSlot db.wal) k db.chain db.wal) := by
  refine compactLoopChecked_eq_aux (findTipSlot db.wal) k db.wal [] db.chain ?_ ?_
  · intro a e c hsplit hu
    exact hinv a e c (by simpa using hsplit) hu
  · intro e' he'
    exact absurd he' (List.not_mem_nil e')

/-- Witness for C9: the checked compaction scan of the sample database
succeeds and agrees with the unchecked scan. -/
theorem compact_scan_no_underflow_witness :
    compactLoopChecked (findTipSlot sampleDb.wal) 5 sampleDb.chain sampleDb.wal =
      some (compactLoop (findTipSlot sampleDb.wal) 5 sampleDb.chain sampleDb.wal) :=
  compact_scan_no_underflow sampleDb 5 (by
    intro pre e post hsplit hlt
    have hmem : e ∈ sampleDb.wal := by
      rw [hsplit]; exact List.mem_append_right _ (List.mem_cons_self _ _)
    have he : e = (1, ⟨WalAction.apply, 10, 10⟩) ∨ e = (2, ⟨WalAction.apply, 20, 20⟩) := by
      simpa [sampleDb, sampleWal] using hmem
    rcases he with h | h <;> subst h <;> exact absurd hlt (by decide))

theorem lookup_cons_self {β : Type} (k : Nat) (v : β) (l : List (Nat × β)) :
    ((k, v) :: l).lookup k = some v := by
  simp [List.lookup]

theorem lookup_cons_of_ne {β : Type} {h k : Nat} (v : β) (l : List (Nat × β))
    (hk : h ≠ k) : ((k, v) :: l).lookup h = l.lookup h := by
  have hb : (h == k) = false := beq_eq_false_iff_ne.mpr hk
  simp [List.lookup, hb]

theorem lookup_map_kv (g : Nat → Option Nat → Option Nat) :
    ∀ (l : List (Nat × Option Nat)) (h : Nat),
      (l.map (fun e => (e.1, g e.1 e.2))).lookup h = (l.lookup h).map (g h) := by
  intro l
  induction l with
  | nil => intro h; rfl
  | cons e rest ih =>
    intro h
    rcases e with ⟨k, v⟩
    by_cases hk : h = k
    · subst hk
      simp [lookup_cons_self]
    · simp only [List.map_cons]
      rw [lookup_cons_of_ne _ _ hk, lookup_cons_of_ne _ _ hk, ih]

theorem setInclusions_eq_map_kv (slot : Nat) (btxs : List Nat)
    (l : List (Nat × Option Nat)) :
    setInclusions slot btxs l =
      l.map (fun e => (e.1, if e.1 ∈ btxs then some slot else e.2)) := by
  unfold setInclusions
  apply List.map_congr_left
  intro e _
  split <;> simp_all

theorem lookup_setInclusions (slot : Nat) (btxs : List Nat)
    (l : List (Nat × Option Nat)) (h : Nat) :
    (setInclusions slot btxs l).lookup h =
      (l.lookup h).map (fun inc => if h ∈ btxs then some slot else inc) := by
  rw [setInclusions_eq_map_kv]
  exact lookup_map_kv (fun k v => if k ∈ btxs then some slot else v) l h

theorem keys_setInclusions (slot : Nat) (btxs : List Nat)
    (l : List (Nat × Option Nat)) :
    (setInclusions slot btxs l).map Prod.fst = l.map Prod.fst := by
  rw [setInclusions_eq_map_kv, List.map_map]
  rfl

theorem rollbackTxs_eq_map_kv (rb : Nat) (l : List (Nat × Option Nat)) :
    (l.map (fun e =>
      match e.2 with
      | some s => if s > rb then (e.1, none) else e
      | none => e)) =
      l.map (fun e => (e.1,
        match e.2 with
        | some s => if rb < s then none else some s
        | none => none)) := by
  apply List.map_congr_left
  intro e _
  rcases e with ⟨k, v⟩
  rcases v with _ | s
  · rfl
  · by_cases hs : s > rb <;> simp [hs]

theorem lookup_mempoolRollback (m : Monitor) (rb h : Nat) :
    (mempoolRollback m rb).txs.lookup h =
      (m.txs.lookup h).map (fun inc =>
        match inc with
        | some s => if rb < s then none else some s
        | none => none) := by
  show (m.txs.map _).lookup h = _
  rw [rollbackTxs_eq_map_kv]
  exact lookup_map_kv
    (fun _ v =>
      match v with
      | some s => if rb < s then none else some s
      | none => none) m.txs h

theorem lookup_eq_none_of_not_mem_keys {β : Type} :
    ∀ (l : List (Nat × β)) (h : Nat), h ∉ l.map Prod.fst → l.lookup h = none := by
  intro l
  induction l with
  | nil => intro h _; rfl
  | cons e rest ih =>
    intro h hm
    rw [List.map_cons, List.mem_cons, not_or] at hm
    rcases e with ⟨k, v⟩
    rw [lookup_cons_of_ne _ _ hm.1]
    exact ih h hm.2

theorem lookup_pruneTxs (ph slot : Nat) :
    ∀ (l : List (Nat × Option Nat)), (l.map Prod.fst).Nodup → ∀ (h : Nat),
      (pruneTxs ph slot l).lookup h =
        (l.lookup h).bind (fun inc =>
          match inc with
          | some s => if wsub slot s ≤ ph then some (some s) else none
          | none => some none) := by
  intro l
  induction l with
  | nil => intro _ h; rfl
  | cons e rest ih =>
    intro hnd h
    rw [List.map_cons, List.nodup_cons] at hnd
    rcases e with ⟨k, v⟩
    by_cases hk : h = k
    · subst hk
      rcases v with _ | s
      · rw [show pruneTxs ph slot ((h, none) :: rest) = (h, none) :: pruneTxs ph slot rest
            from by simp [pruneTxs]]
        rw [lookup_cons_self, lookup_cons_self]
        rfl
      · by_cases hkeep : wsub slot s ≤ ph
        · rw [show pruneTxs ph slot ((h, some s) :: rest) = (h, some s) :: pruneTxs ph slot rest
              from by simp [pruneTxs, hkeep]]
          rw [lookup_cons_self, lookup_cons_self]
          simp [hkeep]
        · rw [show pruneTxs ph slot ((h, some s) :: rest) = pruneTxs ph slot rest
              from by simp [pruneTxs, hkeep]]
          rw [lookup_cons_self, ih hnd.2 h,
            lookup_eq_none_of_not_mem_keys rest h hnd.1]
          simp [hkeep]
    · have hstep : (pruneTxs ph slot ((k, v) :: rest)).lookup h =
          (pruneTxs ph slot rest).lookup h := by
        rcases v with _ | s
        · rw [show pruneTxs ph slot ((k, none) :: rest) = (k, none) :: pruneTxs ph slot rest
              from by simp [pruneTxs]]
          exact lookup_cons_of_ne _ _ hk
        · by_cases hkeep : wsub slot s ≤ ph
          · rw [show pruneTxs ph slot ((k, some s) :: rest)
                  = (k, some s) :: pruneTxs ph slot rest from by simp [pruneTxs, hkeep]]
            exact lookup_cons_of_ne _ _ hk
          · rw [show pruneTxs ph slot ((k, some s) :: rest) = pruneTxs ph slot rest
                from by simp [pruneTxs, hkeep]]
      rw [hstep, lookup_cons_of_ne _ _ hk, ih hnd.2 h]

theorem lookup_append_some {β : Type} :
    ∀ (l l' : List (Nat × β)) (h : Nat) (v : β),
      l.lookup h = some v → (l ++ l').lookup h = some v := by
  intro l
  induction l with
  | nil => intro l' h v hv; simp [List.lookup] at hv
  | cons e rest ih =>
    intro l' h v hv
    rcases e with ⟨k, w⟩
    by_cases hk : h = k
    · subst hk
      rw [lookup_cons_self] at hv
      simpa [List.cons_append, lookup_cons_self] using hv
    · rw [lookup_cons_of_ne _ _ hk] at hv
      rw [List.cons_append, lookup_cons_of_ne _ _ hk]
      exact ih l' h v hv

theorem lookup_addTxs_foldl :
    ∀ (hs : List Nat) (l : List (Nat × Option Nat)) (h : Nat) (v : Option Nat),
      l.lookup h = some v →
      (hs.foldl (fun acc x => if (acc.lookup x).isSome then acc
        else acc ++ [(x, none)]) l).lookup h = some v := by
  intro hs
  induction hs with
  | nil => intro l h v hv; simpa using hv
  | cons x hs ih =>
    intro l h v hv
    rw [List.foldl_cons]
    apply ih
    by_cases hx : (l.lookup x).isSome = true
    · simpa [hx] using hv
    · simpa [hx] using lookup_append_some l _ h v hv

theorem pruneTxsChecked_isSome (ph slot : Nat) :
    ∀ l : List (Nat × Option Nat),
      (pruneTxsChecked ph slot l).isSome = true ↔
        ∀ e ∈ l, inclusionBounded slot e = true := by
  intro l
  induction l with
  | nil => simp [pruneTxsChecked]
  | cons e rest ih =>
    rcases e with ⟨k, v⟩
    rcases v with _ | s
    · simp [pruneTxsChecked, inclusionBounded, ih]
    · by_cases hu : slot % u64 < s % u64
      · simp [pruneTxsChecked, csub, hu, inclusionBounded, Nat.not_le.mpr hu]
      · simp [pruneTxsChecked, csub, hu, inclusionBounded, Nat.not_lt.mp hu, ih]

theorem pruneTxsChecked_eq (ph slot : Nat) :
    ∀ l : List (Nat × Option Nat),
      (∀ e ∈ l, inclusionBounded slot e = true) →
      pruneTxsChecked ph slot l = some (pruneTxs ph slot l) := by
  intro l
  induction l with
  | nil => intro _; rfl
  | cons e rest ih =>
    intro hb
    have hbrest := fun e' he' => hb e' (List.mem_cons_of_mem _ he')
    have hbhead := hb e (List.mem_cons_self _ _)
    rcases e with ⟨k, v⟩
    rcases v with _ | s
    · rw [show pruneTxs ph slot ((k, none) :: rest) = (k, none) :: pruneTxs ph slot rest
          from by simp [pruneTxs]]
      simp [pruneTxsChecked, ih hbrest]
    · have hle : s % u64 ≤ slot % u64 := by simpa [inclusionBounded] using hbhead
      have hcs : csub slot s = some (slot % u64 - s % u64) := by
        simp [csub, Nat.not_lt.mpr hle]
      have hws : wsub slot s = slot % u64 - s % u64 := wsub_eq_of_no_underflow slot s hle
      by_cases hkeep : slot % u64 - s % u64 ≤ ph
      · rw [show pruneTxs ph slot ((k, some s) :: rest) = (k, some s) :: pruneTxs ph slot rest
            from by simp [pruneTxs, hws, hkeep]]
        simp [pruneTxsChecked, hcs, hkeep, ih hbrest]
      · rw [show pruneTxs ph slot ((k, some s) :: rest) = pruneTxs ph slot rest
            from by simp [pruneTxs, hws, hkeep]]
        simp [pruneTxsChecked, hcs, hkeep, ih hbrest]

/-- C5: `Rollback(rb_slot)` sets `tip_slot = rb_slot`, removes no
transaction, resets to `None` exactly the inclusions strictly above
`rb_slot` and leaves all other entries unchanged. -/
theorem mempool_rollback_resets (m : Monitor) (rb : Nat) :
    (mempoolRollback m rb).tip_slot = rb
    ∧ (mempoolRollback m rb).txs.length = m.txs.length
    ∧ ∀ h, (mempoolRollback m rb).txs.lookup h =
        (m.txs.lookup h).map (fun inc =>
          match inc with
          | some s => if rb < s then none else some s
          | none => none) :=
  ⟨rfl, by simp [mempoolRollback], fun h => lookup_mempoolRollback m rb h⟩

/-- C1 counterexample: a transaction already included at slot 5 whose hash
appears again in a block at slot 10 has its inclusion overwritten to 10 by
the code, while the claim says it keeps 5. -/
theorem new_block_overwrites_inclusion_counterexample :
    (mempoolNewBlock 6 ⟨0, [(1, some 5)]⟩ 10 [1]).txs.lookup 1 ≠ some (some 5)
    ∧ (mempoolNewBlock 6 ⟨0, [(1, some 5)]⟩ 10 [1]).txs.lookup 1 = some (some 10) := by
  exact ⟨by decide, by decide⟩

/-- C1 amended: `NewBlock(slot, block_txs)` sets the inclusion point to
`slot` for every tracked transaction whose hash appears in `block_txs`,
regardless of its previous inclusion (an existing `Some(s)` is overwritten,
not kept); a tracked transaction whose hash is not in `block_txs` keeps its
inclusion, subject only to the confirmation pruning. -/
theorem new_block_sets_inclusion (ph slot : Nat) (btxs : List Nat) (m : Monitor)
    (h : Nat) (inc : Option Nat)
    (hnd : (m.txs.map Prod.fst).Nodup) (htr : m.txs.lookup h = some inc) :
    (h ∈ btxs → (mempoolNewBlock ph m slot btxs).txs.lookup h = some (some slot))
    ∧ (h ∉ btxs → (mempoolNewBlock ph m slot btxs).txs.lookup h =
        (inc.map (fun s => if wsub slot s ≤ ph then some (some s) else none)).getD
          (some none)) := by
  have hnd' : ((setInclusions slot btxs m.txs).map Prod.fst).Nodup := by
    rw [keys_setInclusions]; exact hnd
  have hbase : (mempoolNewBlock ph m slot btxs).txs.lookup h =
      ((m.txs.lookup h).map (fun v => if h ∈ btxs then some slot else v)).bind
        (fun v =>
          match v with
          | some s => if wsub slot s ≤ ph then some (some s) else none
          | none => some none) := by
    show (pruneTxs ph slot (setInclusions slot btxs m.txs)).lookup h = _
    rw [lookup_pruneTxs ph slot _ hnd' h, lookup_setInclusions]
  constructor
  · intro hb
    rw [hbase, htr]
    simp [hb, wsub_self]
  · intro hb
    rcases inc with _ | s
    · rw [hbase, htr]; simp [hb]
    · rw [hbase, htr]; simp [hb]

/-- Witness for C1's amended claim at a concrete monitor: transaction 2
(pending) appears in the block at slot 10 and gets inclusion 10;
transaction 2 absent from the block would stay pending. -/
theorem new_block_sets_inclusion_witness :
    (2 ∈ [2] → (mempoolNewBlock 6 sampleMonitor 10 [2]).txs.lookup 2 = some (some 10))
    ∧ (2 ∉ [2] → (mempoolNewBlock 6 sampleMonitor 10 [2]).txs.lookup 2 = some none) :=
  new_block_sets_inclusion 6 10 [2] sampleMonitor 2 none (by decide) (by decide)

/-- C4: no mempool event removes a transaction whose inclusion is `None`
(`AddTxs` leaves tracked entries untouched, `Rollback` keeps every key,
`NewBlock` keeps every unincluded transaction), and the only removal — in
`NewBlock(slot, _)` — deletes exactly the transactions whose inclusion, at
the moment the prune runs, is `Some(s)` with `slot - s > prune_height`. -/
theorem mempool_removal_only_by_confirmation (ph slot rb : Nat) (btxs hs : List Nat)
    (m : Monitor) (h : Nat) (inc : Option Nat)
    (hnd : (m.txs.map Prod.fst).Nodup) (htr : m.txs.lookup h = some inc) :
    (mempoolAddTxs m hs).txs.lookup h = some inc
    ∧ ((mempoolRollback m rb).txs.lookup h).isSome = true
    ∧ (inc = none → ((mempoolNewBlock ph m slot btxs).txs.lookup h).isSome = true)
    ∧ ((mempoolNewBlock ph m slot btxs).txs.lookup h = none ↔
        ∃ s, (setInclusions slot btxs m.txs).lookup h = some (some s) ∧
          ph < wsub slot s) := by
  have hnd' : ((setInclusions slot btxs m.txs).map Prod.fst).Nodup := by
    rw [keys_setInclusions]; exact hnd
  have hset : (setInclusions slot btxs m.txs).lookup h =
      some (if h ∈ btxs then some slot else inc) := by
    rw [lookup_setInclusions, htr]; rfl
  have hbase : (mempoolNewBlock ph m slot btxs).txs.lookup h =
      (match (if h ∈ btxs then some slot else inc) with
        | some s => if wsub slot s ≤ ph then some (some s) else none
        | none => some none) := by
    show (pruneTxs ph slot (setInclusions slot btxs m.txs)).lookup h = _
    rw [lookup_pruneTxs ph slot _ hnd' h, hset]
    rfl
  refine ⟨lookup_addTxs_foldl hs m.txs h inc htr, ?_, ?_, ?_⟩
  · rw [lookup_mempoolRollback, htr]
    rfl
  · intro hincnone
    subst hincnone
    rw [hbase]
    by_cases hb : h ∈ btxs <;> simp [hb, wsub_self]
  · rw [hbase, hset]
    rcases hv : (if h ∈ btxs then some slot else inc) with _ | s
    · simp
    · by_cases hkeep : wsub slot s ≤ ph
      · simp [hkeep, Nat.not_lt.mpr hkeep]
      · simp [hkeep, Nat.not_le.mp hkeep]

/-- Witness for C4 at a concrete monitor and event inputs. -/
theorem mempool_removal_only_by_confirmation_witness :
    (mempoolAddTxs sampleMonitor [9]).txs.lookup 1 = some (some 5)
    ∧ ((mempoolRollback sampleMonitor 3).txs.lookup 1).isSome = true
    ∧ ((some 5 : Option Nat) = none →
        ((mempoolNewBlock 6 sampleMonitor 10 [2]).txs.lookup 1).isSome = true)
    ∧ ((mempoolNewBlock 6 sampleMonitor 10 [2]).txs.lookup 1 = none ↔
        ∃ s, (setInclusions 10 [2] sampleMonitor.txs).lookup 1 = some (some s) ∧
          6 < wsub 10 s) :=
  mempool_removal_only_by_confirmation 6 10 3 [2] [9] sampleMonitor 1 (some 5)
    (by decide) (by decide)

/-- C10: the `NewBlock` prune evaluates `slot - inclusion_slot` unguarded;
it is free of u64 underflow exactly when every inclusion slot recorded in
the monitor at prune time (after the inclusion-setting pass) is at most
`slot`, and under that precondition on the pre-event monitor the checked
computation agrees with the unchecked one. -/
theorem mempool_prune_underflow_guard (ph slot : Nat) (btxs : List Nat) (m : Monitor) :
    ((mempoolNewBlockChecked ph m slot btxs).isSome = true ↔
      ∀ e ∈ setInclusions slot btxs m.txs, inclusionBounded slot e = true)
    ∧ ((∀ e ∈ m.txs, inclusionBounded slot e = true) →
      mempoolNewBlockChecked ph m slot btxs = some (mempoolNewBlock ph m slot btxs)) := by
  constructor
  · rw [show (mempoolNewBlockChecked ph m slot btxs).isSome
        = (pruneTxsChecked ph slot (setInclusions slot btxs m.txs)).isSome from by
      unfold mempoolNewBlockChecked
      cases pruneTxsChecked ph slot (setInclusions slot btxs m.txs) <;> rfl]
    exact pruneTxsChecked_isSome ph slot _
  · intro hpre
    have hpre' : ∀ e ∈ setInclusions slot btxs m.txs, inclusionBounded slot e = true := by
      intro e he
      rw [setInclusions_eq_map_kv] at he
      obtain ⟨e0, he0, rfl⟩ := List.mem_map.mp he
      by_cases hb : e0.1 ∈ btxs
      · simp [inclusionBounded, hb]
      · have := hpre e0 he0
        simpa [inclusionBounded, hb] using this
    unfold mempoolNewBlockChecked mempoolNewBlock
    rw [pruneTxsChecked_eq ph slot _ hpre']
    rfl

/-- Witness for C10: at the sample monitor the precondition holds for a
block at slot 10, and the checked prune agrees with the unchecked one. -/
theorem mempool_prune_underflow_guard_witness :
    mempoolNewBlockChecked 6 sampleMonitor 10 [2] =
      some (mempoolNewBlock 6 sampleMonitor 10 [2]) :=
  (mempool_prune_underflow_guard 6 10 [2] sampleMonitor).2 (by decide)

/-- C8: in the live follow-tip stream the first response is the synthetic
`Reset` for the intersect point; every later response is the image of a
forwarded WAL entry under `wal_log_to_tip_response`, which carries an
`Apply`/`Undo` action for `Apply`/`Undo` log values and no action at all
for a `Mark`; in particular no response after the first ever carries a
`Reset` action. -/
theorem follow_tip_mark_emits_no_event (point : ChainPoint)
    (entries : List (Nat × LogValue)) :
    (followTipResponses point entries).head? = some (point_to_reset_tip_response point)
    ∧ (∀ i e, (entries.drop 1).get? i = some e →
        (followTipResponses point entries).get? (i + 1) =
          some (wal_log_to_tip_response e.2))
    ∧ (∀ e ∈ entries.drop 1, ∀ p, e.2 = LogValue.mark p →
        wal_log_to_tip_response e.2 = ⟨none⟩)
    ∧ (∀ r ∈ (followTipResponses point entries).tail, ∀ a, r.action = some a →
        a.isReset = false) := by
  refine ⟨rfl, ?_, ?_, ?_⟩
  · intro i e he
    have hstep : (followTipResponses point entries).get? (i + 1)
        = ((entries.drop 1).map (fun e => wal_log_to_tip_response e.2)).get? i := rfl
    rw [hstep, List.get?_map, he]
    rfl
  · intro e _ p hp
    rw [hp]
    rfl
  · intro r hr a ha
    have hr' : r ∈ (entries.drop 1).map (fun e => wal_log_to_tip_response e.2) := hr
    obtain ⟨e, _, rfl⟩ := List.mem_map.mp hr'
    cases hv : e.2 <;> rw [hv] at ha
    · rw [show a = TipAction.applyBlock _ from by
        simpa [wal_log_to_tip_response] using ha.symm]
      rfl
    · rw [show a = TipAction.undoBlock _ from by
        simpa [wal_log_to_tip_response] using ha.symm]
      rfl
    · exact absurd ha (by simp [wal_log_to_tip_response])

/-- Witness for C8 at a concrete stream: the head is the reset for the
intersect point, and the mark entry in the forwarded segment produces a
response with no action. -/
theorem follow_tip_mark_emits_no_event_witness :
    (followTipResponses ChainPoint.origin sampleEntries).head?
        = some (point_to_reset_tip_response ChainPoint.origin)
    ∧ wal_log_to_tip_response (sampleEntries.get ⟨1, by decide⟩).2 = ⟨none⟩ :=
  ⟨(follow_tip_mark_emits_no_event ChainPoint.origin sampleEntries).1,
   (follow_tip_mark_emits_no_event ChainPoint.origin sampleEntries).2.2.1
     (sampleEntries.get ⟨1, by decide⟩) (by decide)
     (ChainPoint.specific 5 7) (by decide)⟩

end Dolos
